import Mathlib

/-!
Shallow embedding of the `ranges` crate (src/lib.rs): a collection of
half-open ranges `[start, end)` that is grown by `add_range`, which merges
overlapping ranges, and exported by `to_vec`, which sorts by start bound.

Rust's `Range<T>` is modelled by the structure `Range α` below (the Rust
field `end` is a Lean keyword and is rendered `stop`); the backing
`Vec<Range<T>>` of `struct Ranges<T>` is modelled by a `List (Range α)`.
The recursive method `Ranges::add_range` is modelled with an explicit fuel
parameter bounding the recursion depth, returning `none` when the fuel is
exhausted; `fuel` plays no other role, so any sufficiently large fuel
yields the behaviour of the Rust code.
-/

/-- Model of Rust `std::ops::Range<T>`: the half-open interval
`[start, stop)`.  The second field is named `end` in Rust. -/
structure Range (α : Type) where
  start : α
  stop : α
deriving DecidableEq

namespace RangesModel

variable {α : Type} [LinearOrder α]

/-- Model of Rust `Range::contains` for the `PartialOrd` instance used by
the crate: `r.contains(&x)` holds iff `r.start <= x && x < r.end`. -/
def contains (r : Range α) (x : α) : Bool :=
  decide (r.start ≤ x) && decide (x < r.stop)

/-- Model of `fn overlaps` (src/lib.rs lines 26-31). -/
def overlaps (left right : Range α) : Bool :=
  contains left right.start || contains left right.stop
    || contains right left.start || contains right left.stop

/-- Model of `fn flatten_range` (src/lib.rs lines 74-100).  The Rust
function mutates `left` in place and returns the `expanded` flag; here it
returns the new value of `left` together with that flag. -/
def flatten_range (left right : Range α) : Range α × Bool :=
  match contains left right.start, contains left right.stop with
  | true, true => (left, false)
  | true, false => ({ left with stop := right.stop }, true)
  | false, true => ({ left with start := right.start }, true)
  | false, false =>
    match contains right left.start, contains right left.stop with
    | true, true => ({ start := right.start, stop := right.stop }, true)
    | true, false => ({ left with start := right.start }, true)
    | _, _ => (left, false)

/-- Model of the final loop of `Ranges::add_range` (src/lib.rs lines
67-70): `for expand in expanded { self.0.retain(|v| v != &expand);
self.add_range(expand); }`.  The parameter `addOne` is the recursive
`self.add_range` call (instantiated below with the next fuel level), `st`
is the backing vector and the third argument is the `expanded` list. -/
def processExpanded
    (addOne : List (Range α) → Range α → Option (List (Range α))) :
    List (Range α) → List (Range α) → Option (List (Range α))
  | st, [] => some st
  | st, e :: rest =>
    match addOne (st.filter (fun v => v ≠ e)) e with
    | none => none
    | some st2 => processExpanded addOne st2 rest

/-- Model of `Ranges::add_range` (src/lib.rs lines 54-71) on the backing
vector.  `fuel` bounds the depth of the Rust function's self-recursion;
`none` means the fuel ran out before the call completed.

The Rust body first tests `self.0.is_empty() || self.0.iter().all(|v|
!overlaps(v, &range))` and in that case pushes `range` unchanged.
Otherwise every element overlapping `range` is rewritten in place by
`flatten_range` (the loop over `self.0.iter_mut().filter(...)`), the
rewritten values whose flag was true are collected into `expanded` in
element order, and finally each of them is removed by value
(`Vec::retain`) and re-inserted by a recursive `add_range` call; that
trailing loop is `processExpanded`. -/
def add_range : Nat → List (Range α) → Range α → Option (List (Range α))
  | 0, _, _ => none
  | Nat.succ n, s, r =>
    if s.isEmpty || s.all (fun v => !overlaps v r) then
      some (s ++ [r])
    else
      processExpanded (fun st e => add_range n st e)
        (s.map (fun v => if overlaps v r then (flatten_range v r).1 else v))
        (s.filterMap (fun v =>
          if overlaps v r && (flatten_range v r).2 then
            some (flatten_range v r).1
          else none))

/-- Model of `Ranges::to_vec` (src/lib.rs lines 46-51): a sorted copy of
the backing vector.  Rust's `sort_by_key(|r| r.start)` is a stable sort by
the start bound, as is `List.mergeSort` with this comparator. -/
def to_vec (s : List (Range α)) : List (Range α) :=
  s.mergeSort (fun a b => decide (a.start ≤ b.start))

/-- Folds `add_range` over a list of ranges from a given starting state,
giving every call the same fuel. -/
def addAll (fuel : Nat) : List (Range α) → List (Range α) →
    Option (List (Range α))
  | st, [] => some st
  | st, r :: rs =>
    match add_range fuel st r with
    | none => none
    | some st2 => addAll fuel st2 rs

/-- Runs a sequence of `add_range` calls starting from the empty
collection (`Ranges::default()`), giving every call the same fuel. -/
def runRanges (fuel : Nat) (rs : List (Range α)) :
    Option (List (Range α)) :=
  addAll fuel [] rs

/-- Two ranges with an overlapping pair of occurrences in `s`: the pair
`A`, `B` occupies two distinct positions of `s` (in either order, equal
values at distinct positions included) and `overlaps A B` holds. -/
def OverlapPair (s : List (Range α)) (A B : Range α) : Prop :=
  overlaps A B = true ∧ ([A, B].Sublist s ∨ [B, A].Sublist s)

end RangesModel

namespace RangesModel

variable {α : Type} [LinearOrder α]

theorem contains_iff (r : Range α) (x : α) :
    contains r x = true ↔ r.start ≤ x ∧ x < r.stop := by
  simp [contains]

theorem overlaps_comm (a b : Range α) : overlaps a b = overlaps b a := by
  rw [Bool.eq_iff_iff]
  simp only [overlaps, Bool.or_eq_true]
  tauto

/-- Claim C5 counterexample: for `A = [5,6)` and `B = [6,6)` the end of
`A` equals the start of `B`, yet `overlaps A B` is false, so the
unconditional touching clause of the claim fails on the code. -/
theorem claim_C5_counterexample :
    (Range.mk (5 : Int) 6).stop = (Range.mk (6 : Int) 6).start
      ∧ overlaps (Range.mk (5 : Int) 6) (Range.mk (6 : Int) 6) = false := by
  decide

/-- Claim C5 (amended): `overlaps A B` is true iff A contains B's start,
A contains B's end, B contains A's start or B contains A's end, where
`[s,e)` contains `x` means `s ≤ x < e`; and it is true when one
interval's end equals the other interval's start, provided the interval
whose start is shared is nonempty. -/
theorem claim_C5 (A B : Range α) :
    (overlaps A B = true ↔
      ((A.start ≤ B.start ∧ B.start < A.stop)
        ∨ (A.start ≤ B.stop ∧ B.stop < A.stop)
        ∨ (B.start ≤ A.start ∧ A.start < B.stop)
        ∨ (B.start ≤ A.stop ∧ A.stop < B.stop)))
    ∧ (B.start < B.stop → A.stop = B.start → overlaps A B = true)
    ∧ (A.start < A.stop → B.stop = A.start → overlaps A B = true) := by
  refine ⟨by simp [overlaps, contains, or_assoc], ?_, ?_⟩
  · intro hB hAB
    simp only [overlaps, contains, Bool.or_eq_true, Bool.and_eq_true,
      decide_eq_true_eq, or_assoc]
    exact Or.inr (Or.inr (Or.inr ⟨le_of_eq hAB.symm, hAB ▸ hB⟩))
  · intro hA hBA
    simp only [overlaps, contains, Bool.or_eq_true, Bool.and_eq_true,
      decide_eq_true_eq, or_assoc]
    exact Or.inr (Or.inl ⟨le_of_eq hBA.symm, hBA ▸ hA⟩)

/-- Claim C5 witness: the amended touching clause applied to `[0,1)` and
`[1,3)`. -/
theorem claim_C5_witness :
    overlaps (Range.mk (0 : Int) 1) (Range.mk (1 : Int) 3) = true :=
  (claim_C5 (Range.mk (0 : Int) 1) (Range.mk (1 : Int) 3)).2.1
    (by decide) (by decide)

/-- Claim C7 counterexample: for `L = [0,1)` and `R = [1,2)` the overlap
predicate fires, `L` contains neither bound of `R`, `R` does not contain
`L`'s start, and `R` does contain `L`'s end, so the allegedly unreachable
no-op branch of `flatten_range` is reached and reports no expansion. -/
theorem claim_C7_counterexample :
    overlaps (Range.mk (0 : Int) 1) (Range.mk (1 : Int) 2) = true
    ∧ contains (Range.mk (0 : Int) 1) ((Range.mk (1 : Int) 2).start) = false
    ∧ contains (Range.mk (0 : Int) 1) ((Range.mk (1 : Int) 2).stop) = false
    ∧ contains (Range.mk (1 : Int) 2) ((Range.mk (0 : Int) 1).start) = false
    ∧ contains (Range.mk (1 : Int) 2) ((Range.mk (0 : Int) 1).stop) = true
    ∧ flatten_range (Range.mk (0 : Int) 1) (Range.mk (1 : Int) 2)
        = (Range.mk (0 : Int) 1, false) := by
  decide

/-- Claim C7 (amended): under `overlaps L R = true` the no-op branch
combination (L contains neither bound of R, R does not contain L's start,
R contains L's end) cannot arise, provided `L` is not inverted and `R`'s
start differs from `L`'s end. -/
theorem claim_C7 (L R : Range α) (_hov : overlaps L R = true)
    (hL : L.start ≤ L.stop) (hne : R.start ≠ L.stop) :
    ¬(contains L R.start = false ∧ contains L R.stop = false
      ∧ contains R L.start = false ∧ contains R L.stop = true) := by
  rintro ⟨h1, -, h3, h4⟩
  rw [Bool.eq_false_iff, Ne, contains_iff, not_and, not_lt] at h1 h3
  rw [contains_iff] at h4
  have hRsLe : R.start < L.stop := lt_of_le_of_ne h4.1 hne
  have hRsLs : ¬(L.start ≤ R.start) := fun hle => absurd hRsLe (not_lt.mpr (h1 hle))
  have hReLs : R.stop ≤ L.start := h3 (le_of_lt (not_le.mp hRsLs))
  exact absurd (lt_of_lt_of_le h4.2 (le_trans hReLs hL)) (lt_irrefl _)

/-- Claim C7 witness: the amended unreachability applied to the properly
overlapping pair `L = [0,5)`, `R = [3,8)`. -/
theorem claim_C7_witness :
    ¬(contains (Range.mk (0 : Int) 5) ((Range.mk (3 : Int) 8).start) = false
      ∧ contains (Range.mk (0 : Int) 5) ((Range.mk (3 : Int) 8).stop) = false
      ∧ contains (Range.mk (3 : Int) 8) ((Range.mk (0 : Int) 5).start) = false
      ∧ contains (Range.mk (3 : Int) 8) ((Range.mk (0 : Int) 5).stop) = true) :=
  claim_C7 (Range.mk (0 : Int) 5) (Range.mk (3 : Int) 8)
    (by decide) (by decide) (by decide)

/-- Claim C8: when the collection is empty or no existing range overlaps
the new range, `add_range` appends the new range with unmodified bounds
and keeps every existing element unchanged. -/
theorem claim_C8 (n : Nat) (s : List (Range α)) (r : Range α)
    (h : s = [] ∨ ∀ v ∈ s, overlaps v r = false) :
    add_range (n + 1) s r = some (s ++ [r]) := by
  have hcond : (s.isEmpty || s.all (fun v => !overlaps v r)) = true := by
    rcases h with h | h
    · subst h; rfl
    · simp only [Bool.or_eq_true, List.all_eq_true, Bool.not_eq_true']
      exact Or.inr h
  simp [add_range, hcond]

/-- Claim C8 witness: inserting a non-overlapping range into `[[0,1)]`. -/
theorem claim_C8_witness :
    add_range 1 [Range.mk (0 : Int) 1] (Range.mk (5 : Int) 6)
      = some [Range.mk (0 : Int) 1, Range.mk (5 : Int) 6] :=
  claim_C8 0 [Range.mk (0 : Int) 1] (Range.mk (5 : Int) 6)
    (Or.inr (by decide))

/-- Claim C10: adding any range, degenerate and inverted ones included,
to the empty collection stores it verbatim, and `to_vec` then returns
exactly that one-element sequence. -/
theorem claim_C10 (n : Nat) (a b : α) :
    add_range (n + 1) [] (Range.mk a b) = some [Range.mk a b]
    ∧ to_vec [Range.mk a b] = [Range.mk a b] := by
  constructor
  · simp [add_range]
  · simp [to_vec]

theorem flatten_range_of_not_expanded (l r : Range α)
    (h : (flatten_range l r).2 = false) : (flatten_range l r).1 = l := by
  unfold flatten_range at h ⊢
  cases h1 : contains l r.start <;> cases h2 : contains l r.stop <;>
    cases h3 : contains r l.start <;> cases h4 : contains r l.stop <;>
    simp_all

theorem OverlapPair.mono {s t : List (Range α)} (hsub : s.Sublist t)
    {A B : Range α} (hp : OverlapPair s A B) : OverlapPair t A B :=
  ⟨hp.1, hp.2.elim (fun h2 => Or.inl (h2.trans hsub))
    (fun h2 => Or.inr (h2.trans hsub))⟩

theorem OverlapPair.mem_left {s : List (Range α)} {A B : Range α}
    (hp : OverlapPair s A B) : A ∈ s := by
  rcases hp.2 with h2 | h2
  · exact h2.subset (by simp)
  · exact h2.subset (by simp)

theorem OverlapPair.mem_right {s : List (Range α)} {A B : Range α}
    (hp : OverlapPair s A B) : B ∈ s := by
  rcases hp.2 with h2 | h2
  · exact h2.subset (by simp)
  · exact h2.subset (by simp)

/-- List helper: a sublist of `s.map g` whose members are images moved by
`g` of no member of `s` is already a sublist of `s`. -/
theorem sublist_of_sublist_map {β : Type} (g : β → β) :
    ∀ (s sub : List β), sub.Sublist (s.map g) →
      (∀ v ∈ s, g v ≠ v → g v ∉ sub) → sub.Sublist s := by
  intro s
  induction s with
  | nil => intro sub hsub _; simpa using hsub
  | cons v s ih =>
    intro sub hsub hfix
    rw [List.map_cons] at hsub
    cases hsub with
    | cons _ h =>
      exact (ih _ h (fun u hu => hfix u (List.mem_cons_of_mem v hu))).cons v
    | cons₂ _ h =>
      have hv : g v = v := by
        by_contra hne
        exact hfix v (List.mem_cons_self v s) hne (List.mem_cons_self _ _)
      have htail := ih _ h (fun u hu hne hmem =>
        hfix u (List.mem_cons_of_mem v hu) hne (List.mem_cons_of_mem _ hmem))
      rw [hv]
      exact htail.cons₂ v

/-- List helper: two distinct members of a list occur as a two-element
sublist in one of the two orders. -/
theorem pair_sublist_of_mem {β : Type} {A B : β} (hne : A ≠ B) :
    ∀ {s : List β}, A ∈ s → B ∈ s →
      ([A, B].Sublist s ∨ [B, A].Sublist s) := by
  intro s
  induction s with
  | nil => intro h _; cases h
  | cons v s ih =>
    intro hA hB
    rcases List.mem_cons.mp hA with rfl | hA2
    · have hB2 : B ∈ s := by
        rcases List.mem_cons.mp hB with h | h
        · exact (hne h.symm).elim
        · exact h
      exact Or.inl ((List.singleton_sublist.mpr hB2).cons₂ A)
    · rcases List.mem_cons.mp hB with rfl | hB2
      · exact Or.inr ((List.singleton_sublist.mpr hA2).cons₂ B)
      · rcases ih hA2 hB2 with h | h
        · exact Or.inl (h.cons v)
        · exact Or.inr (h.cons v)

/-- List helper: a two-element sublist of `s ++ [r]` either lives in `s`
or ends with `r` and starts with a member of `s`. -/
theorem pair_sublist_append_singleton {β : Type} {A B r : β} :
    ∀ {s : List β}, [A, B].Sublist (s ++ [r]) →
      [A, B].Sublist s ∨ (A ∈ s ∧ B = r) := by
  intro s
  induction s with
  | nil =>
    intro h
    have := h.length_le
    simp at this
  | cons v s ih =>
    intro h
    rw [List.cons_append] at h
    cases h with
    | cons _ h2 =>
      rcases ih h2 with h3 | h3
      · exact Or.inl (h3.cons v)
      · exact Or.inr ⟨List.mem_cons_of_mem v h3.1, h3.2⟩
    | cons₂ _ h2 =>
      rcases List.mem_append.mp (List.singleton_sublist.mp h2) with h3 | h3
      · exact Or.inl ((List.singleton_sublist.mpr h3).cons₂ _)
      · exact Or.inr ⟨List.mem_cons_self _ _, by simpa using h3⟩

/-- Key lemma for the trailing loop of `add_range`: assuming the
recursive call at the current fuel level creates no overlapping pair,
the loop creates none either, and no value of the processed `expanded`
list takes part in an overlapping pair of the final state. -/
theorem processExpanded_no_new (n : Nat)
    (IH : ∀ (s : List (Range α)) (r : Range α) (t : List (Range α)),
      add_range n s r = some t →
      ∀ A B, OverlapPair t A B → OverlapPair s A B) :
    ∀ (exp st t : List (Range α)),
      processExpanded (fun st2 e => add_range n st2 e) st exp = some t →
      ∀ A B, OverlapPair t A B →
        OverlapPair st A B ∧ A ∉ exp ∧ B ∉ exp := by
  intro exp
  induction exp with
  | nil =>
    intro st t h A B hp
    simp only [processExpanded] at h
    cases h
    exact ⟨hp, by simp, by simp⟩
  | cons e rest ih =>
    intro st t h A B hp
    simp only [processExpanded] at h
    split at h
    · exact absurd h (by simp)
    · rename_i st2 hstep
      obtain ⟨hp2, hAr, hBr⟩ := ih st2 t h A B hp
      have hpf := IH _ _ _ hstep A B hp2
      have hAf := hpf.mem_left
      have hBf := hpf.mem_right
      have hAe : ¬(A = e) := by
        have := (List.mem_filter.mp hAf).2
        simpa using this
      have hBe : ¬(B = e) := by
        have := (List.mem_filter.mp hBf).2
        simpa using this
      refine ⟨hpf.mono (List.filter_sublist st), ?_, ?_⟩
      · intro hmem
        rcases List.mem_cons.mp hmem with h3 | h3
        · exact hAe h3
        · exact hAr h3
      · intro hmem
        rcases List.mem_cons.mp hmem with h3 | h3
        · exact hBe h3
        · exact hBr h3

/-- Key invariant of `add_range`: whenever it completes within its fuel,
every overlapping pair of occurrences in the output state was already an
overlapping pair of occurrences in the input state. -/
theorem add_range_no_new :
    ∀ (n : Nat) (s : List (Range α)) (r : Range α) (t : List (Range α)),
      add_range n s r = some t →
      ∀ A B, OverlapPair t A B → OverlapPair s A B := by
  intro n
  induction n with
  | zero => intro s r t h; exact absurd h (by simp [add_range])
  | succ n ihn =>
    intro s r t h A B hp
    simp only [add_range] at h
    split at h
    · rename_i hcond
      cases h
      obtain ⟨hov, hsub⟩ := hp
      have hno : ∀ v ∈ s, overlaps v r = false := by
        rw [Bool.or_eq_true] at hcond
        rcases hcond with hemp | hall
        · intro v hv
          rw [List.isEmpty_iff.mp hemp] at hv
          cases hv
        · intro v hv
          simpa using List.all_eq_true.mp hall v hv
      refine ⟨hov, ?_⟩
      rcases hsub with h2 | h2
      · rcases pair_sublist_append_singleton h2 with h3 | h3
        · exact Or.inl h3
        · exact absurd (h3.2 ▸ hov) (by simp [hno A h3.1])
      · rcases pair_sublist_append_singleton h2 with h3 | h3
        · exact Or.inr h3
        · have h4 : overlaps B r = true := by
            rw [overlaps_comm]; exact h3.2 ▸ hov
          exact absurd h4 (by simp [hno B h3.1])
    · obtain ⟨hp1, hAexp, hBexp⟩ := processExpanded_no_new n ihn _ _ t h A B hp
      obtain ⟨hov, hsub⟩ := hp1
      have himg : ∀ v ∈ s,
          (if overlaps v r then (flatten_range v r).1 else v) ≠ v →
          (if overlaps v r then (flatten_range v r).1 else v) ∈
            s.filterMap (fun v =>
              if overlaps v r && (flatten_range v r).2 then
                some (flatten_range v r).1
              else none) := by
        intro v hv hne
        by_cases hovr : overlaps v r = true
        · rw [if_pos hovr] at hne ⊢
          cases hflag : (flatten_range v r).2 with
          | false => exact absurd (flatten_range_of_not_expanded v r hflag) hne
          | true =>
            exact List.mem_filterMap.mpr
              ⟨v, hv, by rw [if_pos (by simp [hovr, hflag])]⟩
        · rw [if_neg hovr] at hne
          exact absurd rfl hne
      have hcondAB : ∀ v ∈ s,
          (if overlaps v r then (flatten_range v r).1 else v) ≠ v →
          (if overlaps v r then (flatten_range v r).1 else v) ∉ [A, B] := by
        intro v hv hne hmem
        have hexp := himg v hv hne
        rcases List.mem_cons.mp hmem with h3 | h3
        · exact hAexp (h3 ▸ hexp)
        · exact hBexp (List.mem_singleton.mp h3 ▸ hexp)
      have hcondBA : ∀ v ∈ s,
          (if overlaps v r then (flatten_range v r).1 else v) ≠ v →
          (if overlaps v r then (flatten_range v r).1 else v) ∉ [B, A] := by
        intro v hv hne hmem
        have hexp := himg v hv hne
        rcases List.mem_cons.mp hmem with h3 | h3
        · exact hBexp (h3 ▸ hexp)
        · exact hAexp (List.mem_singleton.mp h3 ▸ hexp)
      refine ⟨hov, ?_⟩
      rcases hsub with h2 | h2
      · exact Or.inl (sublist_of_sublist_map _ s _ h2 hcondAB)
      · exact Or.inr (sublist_of_sublist_map _ s _ h2 hcondBA)

/-- Runs of `add_range` from a pair-free starting state keep the state
free of overlapping pairs. -/
theorem addAll_no_overlap_pair (fuel : Nat) :
    ∀ (rs init s : List (Range α)),
      (∀ A B, ¬OverlapPair init A B) →
      addAll fuel init rs = some s →
      ∀ A B, ¬OverlapPair s A B := by
  intro rs
  induction rs with
  | nil =>
    intro init s hinit h
    simp only [addAll] at h
    cases h
    exact hinit
  | cons r rs ih =>
    intro init s hinit h
    simp only [addAll] at h
    split at h
    · exact absurd h (by simp)
    · rename_i st2 hstep
      exact ih st2 s
        (fun A B hp => hinit A B (add_range_no_new fuel init r st2 hstep A B hp))
        h

/-- Claim C1 evaluated at its failing input: after adding `[0,1)`,
`[2,3)`, `[1,2)` the exported sequence is `[[0,1)]`; the point `2` is
covered by the added range `[2,3)` but by no exported interval, so
coverage is not preserved. -/
theorem claim_C1 :
    runRanges 10 [Range.mk (0 : Int) 1, Range.mk 2 3, Range.mk 1 2]
        = some [Range.mk (0 : Int) 1]
    ∧ to_vec [Range.mk (0 : Int) 1] = [Range.mk (0 : Int) 1]
    ∧ contains (Range.mk (2 : Int) 3) 2 = true
    ∧ ([Range.mk (0 : Int) 1].all fun X => !contains X 2) = true :=
  ⟨by decide, by simp [to_vec], by decide, by decide⟩

/-- Claim C2 evaluated at its own input: adding `[0,1)`, `[2,3)`, `[1,2)`
yields the export `[[0,1)]`, not the single merged `[[0,3)]` the claim
requires. -/
theorem claim_C2 :
    runRanges 10 [Range.mk (0 : Int) 1, Range.mk 2 3, Range.mk 1 2]
        = some [Range.mk (0 : Int) 1]
    ∧ to_vec [Range.mk (0 : Int) 1] = [Range.mk (0 : Int) 1]
    ∧ [Range.mk (0 : Int) 1] ≠ [Range.mk (0 : Int) 3] :=
  ⟨by decide, by simp [to_vec], by decide⟩

/-- Claim C3 evaluated at a failing pair of orders: the same three ranges
added in two different orders export `[[0,1)]` and `[[0,2)]`
respectively, so the final exported sequence is order-dependent. -/
theorem claim_C3 :
    runRanges 10 [Range.mk (0 : Int) 1, Range.mk 2 3, Range.mk 1 2]
        = some [Range.mk (0 : Int) 1]
    ∧ runRanges 10 [Range.mk (1 : Int) 2, Range.mk 2 3, Range.mk 0 1]
        = some [Range.mk (0 : Int) 2]
    ∧ List.Perm [Range.mk (0 : Int) 1, Range.mk 2 3, Range.mk 1 2]
        [Range.mk (1 : Int) 2, Range.mk 2 3, Range.mk 0 1]
    ∧ to_vec [Range.mk (0 : Int) 1] = [Range.mk (0 : Int) 1]
    ∧ to_vec [Range.mk (0 : Int) 2] = [Range.mk (0 : Int) 2]
    ∧ [Range.mk (0 : Int) 1] ≠ [Range.mk (0 : Int) 2] :=
  ⟨by decide, by decide, by decide, by simp [to_vec], by simp [to_vec], by decide⟩

/-- Claim C4: after any terminating sequence of `add_range` calls from
the empty collection, any two distinct ranges held in the collection, and
hence any two distinct ranges of the `to_vec` output, do not satisfy
`overlaps`. -/
theorem claim_C4 (fuel : Nat) (rs s : List (Range α))
    (h : runRanges fuel rs = some s) :
    (∀ A B, A ≠ B → A ∈ s → B ∈ s → overlaps A B = false)
    ∧ (∀ A B, A ≠ B → A ∈ to_vec s → B ∈ to_vec s → overlaps A B = false) := by
  have hno : ∀ A B, ¬OverlapPair s A B := by
    refine addAll_no_overlap_pair fuel rs [] s ?_ (by simpa [runRanges] using h)
    intro A B hp
    rcases hp.2 with h2 | h2 <;> simp at h2
  have hmain : ∀ A B : Range α, A ≠ B → A ∈ s → B ∈ s →
      overlaps A B = false := by
    intro A B hne hA hB
    by_contra hov
    rw [Bool.not_eq_false] at hov
    exact hno A B ⟨hov, pair_sublist_of_mem hne hA hB⟩
  refine ⟨hmain, ?_⟩
  intro A B hne hA hB
  simp only [to_vec] at hA hB
  exact hmain A B hne ((List.mergeSort_perm s _).mem_iff.mp hA)
    ((List.mergeSort_perm s _).mem_iff.mp hB)

/-- Claim C4 witness: the disjointness conclusion applied to the state
reached by adding `[0,1)` then `[5,6)`. -/
theorem claim_C4_witness :
    overlaps (Range.mk (0 : Int) 1) (Range.mk (5 : Int) 6) = false :=
  (claim_C4 2 [Range.mk (0 : Int) 1, Range.mk (5 : Int) 6]
      [Range.mk (0 : Int) 1, Range.mk (5 : Int) 6] (by decide)).1
    (Range.mk (0 : Int) 1) (Range.mk (5 : Int) 6) (by decide) (by decide)
    (by decide)

/-- Two ranges containing a common point satisfy `overlaps`. -/
theorem overlaps_of_common_point {X Y : Range α} {p : α}
    (hX : contains X p = true) (hY : contains Y p = true) :
    overlaps X Y = true := by
  rw [contains_iff] at hX hY
  simp only [overlaps, Bool.or_eq_true, contains_iff, or_assoc]
  rcases le_total X.start Y.start with hle | hle
  · exact Or.inl ⟨hle, lt_of_le_of_lt hY.1 hX.2⟩
  · exact Or.inr (Or.inr (Or.inl ⟨hle, lt_of_le_of_lt hX.1 hY.2⟩))

/-- List helper: mapping a function that fixes every member of a list is
the identity on that list. -/
theorem map_id_of_mem {β : Type} (g : β → β) :
    ∀ s : List β, (∀ v ∈ s, g v = v) → s.map g = s := by
  intro s h
  induction s with
  | nil => rfl
  | cons v tl ih =>
    rw [List.map_cons, h v (List.mem_cons_self v tl),
      ih (fun u hu => h u (List.mem_cons_of_mem v hu))]

/-- On a state without overlapping pairs that holds a range `E`
containing both bounds of `r`, `add_range` is a complete no-op: `E` is
the only element overlapping `r`, its `flatten_range` takes the
contains-both branch without the expanded flag, and the `expanded` list
is empty. -/
theorem add_range_covered_noop (n : Nat) (s : List (Range α)) (r E : Range α)
    (hclean : ∀ A B, ¬OverlapPair s A B) (hE : E ∈ s)
    (h1 : contains E r.start = true) (h2 : contains E r.stop = true) :
    add_range (n + 1) s r = some s := by
  have hovE0 : overlaps E r = true := by
    simp only [overlaps, Bool.or_eq_true]
    exact Or.inl (Or.inl (Or.inl h1))
  have key : ∀ v ∈ s,
      (if overlaps v r then (flatten_range v r).1 else v) = v ∧
      (if overlaps v r && (flatten_range v r).2 then
          some (flatten_range v r).1 else none) = none := by
    intro v hv
    by_cases hovr : overlaps v r = true
    · have hvb : contains v r.start = true ∧ contains v r.stop = true := by
        by_cases hvE : v = E
        · subst hvE; exact ⟨h1, h2⟩
        · exfalso
          have hovE : overlaps v E = true := by
            simp only [overlaps, Bool.or_eq_true, or_assoc] at hovr
            rcases hovr with h3 | h3 | h3 | h3
            · exact overlaps_of_common_point h3 h1
            · exact overlaps_of_common_point h3 h2
            · rw [contains_iff] at h1 h2 h3
              simp only [overlaps, Bool.or_eq_true, contains_iff, or_assoc]
              exact Or.inr (Or.inr (Or.inl
                ⟨le_trans h1.1 h3.1, lt_trans h3.2 h2.2⟩))
            · rw [contains_iff] at h1 h2 h3
              simp only [overlaps, Bool.or_eq_true, contains_iff, or_assoc]
              exact Or.inr (Or.inr (Or.inr
                ⟨le_trans h1.1 h3.1, lt_trans h3.2 h2.2⟩))
          exact hclean v E ⟨hovE, pair_sublist_of_mem hvE hv hE⟩
      have hfl : flatten_range v r = (v, false) := by
        unfold flatten_range
        rw [hvb.1, hvb.2]
      constructor
      · rw [if_pos hovr, hfl]
      · rw [hfl]
        simp
    · have hovr2 : overlaps v r = false := by
        revert hovr; cases overlaps v r <;> simp
      constructor
      · rw [if_neg hovr]
      · simp [hovr2]
  have hcond : ¬(s.isEmpty || s.all (fun v => !overlaps v r)) = true := by
    simp only [Bool.or_eq_true, List.all_eq_true, Bool.not_eq_true', not_or]
    constructor
    · intro hemp
      rw [List.isEmpty_iff.mp hemp] at hE
      cases hE
    · intro hall
      exact absurd hovE0 (by simp [hall E hE])
  simp only [add_range]
  rw [if_neg hcond]
  have hmap : s.map
      (fun v => if overlaps v r then (flatten_range v r).1 else v) = s :=
    map_id_of_mem _ s (fun v hv => (key v hv).1)
  have hfm : s.filterMap (fun v =>
      if overlaps v r && (flatten_range v r).2 then
        some (flatten_range v r).1
      else none) = [] :=
    List.filterMap_eq_nil_iff.mpr (fun v hv => (key v hv).2)
  rw [hmap, hfm]
  rfl

/-- Claim C6: in any state reached by a terminating run of `add_range`
calls starting from the empty collection, adding a range both of whose
bounds are contained in a single existing range leaves the collection,
and hence the `to_vec` output, unchanged. -/
theorem claim_C6 (fuel : Nat) (rs s : List (Range α))
    (h : runRanges fuel rs = some s) (E r : Range α) (hE : E ∈ s)
    (h1 : contains E r.start = true) (h2 : contains E r.stop = true)
    (n : Nat) :
    add_range (n + 1) s r = some s
    ∧ (add_range (n + 1) s r).map to_vec = some (to_vec s) := by
  have hclean : ∀ A B, ¬OverlapPair s A B := by
    refine addAll_no_overlap_pair fuel rs [] s ?_ (by simpa [runRanges] using h)
    intro A B hp
    rcases hp.2 with h3 | h3 <;> simp at h3
  have hmain := add_range_covered_noop n s r E hclean hE h1 h2
  exact ⟨hmain, by rw [hmain]; rfl⟩

/-- Claim C6 witness: re-inserting `[1,3)`, which is covered by the
existing `[0,5)`, into the reachable state `[[0,5)]`. -/
theorem claim_C6_witness :
    add_range 1 [Range.mk (0 : Int) 5] (Range.mk (1 : Int) 3)
      = some [Range.mk (0 : Int) 5] :=
  (claim_C6 2 [Range.mk (0 : Int) 5] [Range.mk (0 : Int) 5] (by decide)
    (Range.mk (0 : Int) 5) (Range.mk (1 : Int) 3) (by decide)
    (by decide) (by decide) 0).1

end RangesModel
